import Mathlib

/-!
Shallow embedding of the cs2-skins-discord-bot aggregation core
(src/core/aggregator.ts, src/core/cache.ts, src/core/normalize.ts,
src/core/types.ts, src/providers/*.ts), together with theorems settling
the frozen claims about it.

Modelling conventions:
* JavaScript strings are Lean `String`s; the internal scanners mirror the
  regex-based `String.prototype.replace` calls character by character on
  `List Char` (`\s` is modelled by `Char.isWhitespace`, `\w` by
  alphanumeric-or-underscore).
* JS numbers holding prices are modelled as `ℚ` (every price that enters a
  `MarketResult` passed a `Number.isFinite` check in the source, so no
  NaN/Infinity arises); `undefined` is `Option.none`.
* `Date.now()` is an explicit `now : ℕ` (milliseconds) parameter.
* `Array.prototype.sort` is required to be stable by the ECMAScript spec;
  it is modelled by `List.insertionSort` (a stable sort).
* An async provider call is modelled by its observable outcome
  (`ProviderBehavior`): the value list it fulfils with, the error message
  it rejects with, or exceeding the `withTimeout` budget.
-/

/-- Wear tiers, from `src/core/types.ts` (`type Wear = ...`). -/
inductive Wear
  | factoryNew
  | minimalWear
  | fieldTested
  | wellWorn
  | battleScarred
deriving DecidableEq, Repr

/-- The display string of a wear tier, exactly the string-literal union in `types.ts`. -/
def wearName : Wear → String
  | .factoryNew => "Factory New"
  | .minimalWear => "Minimal Wear"
  | .fieldTested => "Field-Tested"
  | .wellWorn => "Well-Worn"
  | .battleScarred => "Battle-Scarred"

/-- `WEARS` constant of `src/core/normalize.ts`, in source order. -/
def WEARS : List Wear :=
  [.factoryNew, .minimalWear, .fieldTested, .wellWorn, .battleScarred]

/-- The wear names as character lists (the alternatives of the wear regex). -/
def wearNamesChars : List (List Char) := WEARS.map (fun w => (wearName w).data)

/-- Collapse of every whitespace run to a single space: `.replace(/\s+/g, ' ')`.
The flag records whether the previous input character was whitespace. -/
def squashWsAux : Bool → List Char → List Char
  | _, [] => []
  | prevWs, c :: rest =>
    if c.isWhitespace then
      if prevWs then squashWsAux true rest else ' ' :: squashWsAux true rest
    else c :: squashWsAux false rest

/-- `.replace(/\s+/g, ' ')` on a character list. -/
def squashWsChars (l : List Char) : List Char := squashWsAux false l

/-- Right half of `String.prototype.trim`: drop trailing whitespace. -/
def trimRightChars (l : List Char) : List Char :=
  (l.reverse.dropWhile (·.isWhitespace)).reverse

/-- `String.prototype.trim`: drop leading and trailing whitespace. -/
def trimChars (l : List Char) : List Char :=
  trimRightChars (l.dropWhile (·.isWhitespace))

/-- Scanner for `.replace(/\s*\|\s*/g, ' | ')`.  `pnd` buffers (reversed) the
whitespace run currently being read, which belongs to a `\s*\|` match exactly
when the next non-space character is a pipe; `afterPipe` absorbs the trailing
`\s*` of a match. -/
def normPipesAux (pnd : List Char) (afterPipe : Bool) : List Char → List Char
  | [] => pnd.reverse
  | c :: rest =>
    if c = '|' then ' ' :: '|' :: ' ' :: normPipesAux [] true rest
    else if c.isWhitespace then
      if afterPipe then normPipesAux [] true rest
      else normPipesAux (c :: pnd) false rest
    else pnd.reverse ++ c :: normPipesAux [] false rest

/-- `.replace(/\s*\|\s*/g, ' | ')` on a character list. -/
def normPipesChars (l : List Char) : List Char := normPipesAux [] false l

/-- Scanner for `.replace(/\(([^)]+)\)/g, '')`: a parenthesis opening a
non-empty run of non-`)` characters that is closed is removed together with
its content; anything else is copied.  Fuel is the input length (each
recursive call consumes at least one input character). -/
def stripParensFuel : ℕ → List Char → List Char
  | 0, l => l
  | _ + 1, [] => []
  | fuel + 1, c :: rest =>
    if c = '(' then
      match rest.dropWhile (· ≠ ')') with
      | ')' :: after =>
        if (rest.takeWhile (· ≠ ')')).isEmpty then '(' :: stripParensFuel fuel rest
        else stripParensFuel fuel after
      | _ => '(' :: stripParensFuel fuel rest
    else c :: stripParensFuel fuel rest

/-- `.replace(/\(([^)]+)\)/g, '')` on a character list. -/
def stripParensChars (l : List Char) : List Char := stripParensFuel l.length l

/-- Regex `\w` (word character): letter, digit or underscore. -/
def isWordChar (c : Char) : Bool := c.isAlphanum || c = '_'

/-- Case-insensitive prefix test (the `i` regex flag). -/
def ciIsPre : List Char → List Char → Bool
  | [], _ => true
  | _ :: _, [] => false
  | a :: as, b :: bs => (a.toLower = b.toLower) && ciIsPre as bs

/-- Word boundary `\b` after a match: end of input or a non-word character. -/
def boundaryAfter : List Char → Bool
  | [] => true
  | c :: _ => !isWordChar c

/-- Length of the wear-name alternative matching at the head of `l`
(case-insensitive, with a trailing `\b`), if any.  Mirrors the alternation
order of ``new RegExp(`\\b(?:${WEARS.join('|')})\\b`, 'gi')``. -/
def wearMatchLen (l : List Char) : Option ℕ :=
  wearNamesChars.findSome? fun w =>
    if ciIsPre w l && boundaryAfter (l.drop w.length) then some w.length else none

/-- Scanner for the global wear-regex replacement.  `prevWord` is whether the
previous character of the original string is a word character (the leading
`\b`); every wear name ends in a letter, so after a removal the flag is true.
Fuel is the input length. -/
def removeWearFuel : ℕ → Bool → List Char → List Char
  | 0, _, l => l
  | _ + 1, _, [] => []
  | fuel + 1, prevWord, c :: rest =>
    match (if prevWord then none else wearMatchLen (c :: rest)) with
    | some n => removeWearFuel fuel true (List.drop n (c :: rest))
    | none => c :: removeWearFuel fuel (isWordChar c) rest

/-- The wear-regex global replacement on a character list. -/
def removeWearChars (l : List Char) : List Char := removeWearFuel l.length false l

/-- `removeWearFromQuery` of `src/core/normalize.ts`:
`query.replace(/\(([^)]+)\)/g, '').replace(wearPattern, '').replace(/\s+/g, ' ').trim()`. -/
def removeWearFromQuery (q : List Char) : List Char :=
  trimChars (squashWsChars (removeWearChars (stripParensChars q)))

/-- `titleizeWord` of `src/core/normalize.ts`: upper-case a word of 1–3
letters or one containing a digit or hyphen, otherwise capitalize the
lower-cased word. -/
def titleizeWord (w : List Char) : List Char :=
  match w with
  | [] => []
  | c0 :: rest =>
    if (decide ((c0 :: rest).length ≤ 3) && (c0 :: rest).all (·.isAlpha))
        || (c0 :: rest).any (fun c => c.isDigit || c = '-') then
      (c0 :: rest).map Char.toUpper
    else Char.toUpper (Char.toLower c0) :: rest.map Char.toLower

/-- `String.prototype.split(' ')` (single-character separator, keeps empty pieces). -/
def splitSp : List Char → List (List Char)
  | [] => [[]]
  | c :: rest =>
    match splitSp rest with
    | [] => []
    | h :: t => if c = ' ' then [] :: h :: t else (c :: h) :: t

/-- Insertion-ordered deduplication, as a JavaScript `Set` collected with
`Array.from`. -/
def dedupKeepFirst {α : Type} [DecidableEq α] (l : List α) : List α :=
  l.foldl (fun acc x => if x ∈ acc then acc else acc ++ [x]) []

/-- `buildBaseCandidates` of `src/core/normalize.ts`. -/
def buildBaseCandidates (query : List Char) : List (List Char) :=
  let cleaned := normPipesChars (removeWearFromQuery query)
  if cleaned = [] then []
  else
    match (splitSp cleaned).filter (fun w => w ≠ []) with
    | [] => []
    | w0 :: wrest =>
      let titleized := (w0 :: wrest).map titleizeWord
      let joined := List.intercalate [' '] titleized
      if '|' ∈ joined then dedupKeepFirst [normPipesChars joined]
      else
        dedupKeepFirst
          ([joined] ++
            if wrest ≠ [] then
              [normPipesChars
                (titleizeWord w0 ++ " | ".data ++ List.intercalate [' '] (wrest.map titleizeWord))]
            else [])

/-- The `souvenirOptions` ternary of `inferCandidates`. -/
def souvenirOptions : Option Bool → List (List Char)
  | some true => ["Souvenir ".data]
  | some false => [[]]
  | none => [[], "Souvenir ".data]

/-- The `stattrakOptions` ternary of `inferCandidates`. -/
def stattrakOptions : Option Bool → List (List Char)
  | some true => ["StatTrak™ ".data]
  | some false => [[]]
  | none => [[], "StatTrak™ ".data]

/-- The `wearOptions` ternary of `inferCandidates`: `wear ? [wear] : [undefined, ...WEARS]`. -/
def wearOptions : Option Wear → List (Option Wear)
  | some w => [some w]
  | none => none :: WEARS.map some

/-- The wear suffix of a candidate: `` wearOption ? ` (${wearOption})` : '' ``. -/
def wearSuffix : Option Wear → List Char
  | some w => (" (" ++ wearName w ++ ")").data
  | none => []

/-- `inferCandidates` of `src/core/normalize.ts`: cross product of the
souvenir/StatTrak prefixes and wear suffixes over the base candidates, each
candidate trimmed and pipe-normalized, deduplicated in insertion order. -/
def inferCandidates (query : String) (wear : Option Wear)
    (stattrak souvenir : Option Bool) : List String :=
  let baseCandidates := buildBaseCandidates query.data
  if baseCandidates = [] then []
  else
    (dedupKeepFirst
      (baseCandidates.flatMap fun base =>
        (souvenirOptions souvenir).flatMap fun svp =>
          (stattrakOptions stattrak).flatMap fun stp =>
            (wearOptions wear).map fun wo =>
              normPipesChars (trimChars (svp ++ stp ++ base ++ wearSuffix wo)))).map
      fun l => String.mk l

/-- Boolean character-list prefix test used to state "begins with". -/
def beginsWithChars : List Char → List Char → Bool
  | [], _ => true
  | _ :: _, [] => false
  | a :: as, b :: bs => (a = b) && beginsWithChars as bs

/-- `s` begins with the string `pre`. -/
def strBeginsWith (s pre : String) : Bool := beginsWithChars pre.data s.data

/-- `s` ends with the string `sfx`. -/
def strEndsWith (s sfx : String) : Bool := beginsWithChars sfx.data.reverse s.data.reverse

/-- Pipe-safe candidate prefix: no pipe, and any whitespace character is
immediately followed by a non-whitespace, non-pipe character. -/
def okPre : List Char → Bool
  | [] => true
  | c :: rest =>
    if c = '|' then false
    else if c.isWhitespace then
      match rest with
      | [] => false
      | d :: _ => !d.isWhitespace && d ≠ '|' && okPre rest
    else okPre rest

/-- Sort strategies, from `src/core/types.ts` (`type SortStrategy`). -/
inductive SortStrategy
  | price
  | discount
  | market
  | name
deriving DecidableEq, Repr

/-- `SearchQuery` of `src/core/types.ts`.  Optional fields are `Option`s;
prices are `ℚ`. -/
structure SearchQuery where
  text : String
  wear : Option Wear := none
  stattrak : Option Bool := none
  souvenir : Option Bool := none
  floatMin : Option ℚ := none
  floatMax : Option ℚ := none
  patternIn : Option (List ℤ) := none
  limitPerMarket : Option ℕ := none
  currency : Option String := none
  country : Option String := none
  priceMin : Option ℚ := none
  priceMax : Option ℚ := none
  providers : Option (List String) := none
  sortBy : Option SortStrategy := none
deriving DecidableEq, Repr

/-- `MarketResult` of `src/core/types.ts`.  The open-ended `sourceMeta`
map of source-specific metadata is not modelled (it is never read by the
aggregation core). -/
structure MarketResult where
  market : String
  name : String
  url : Option String := none
  price : Option ℚ := none
  priceFormatted : Option String := none
  currency : String
  availability : Option String := none
  wear : Option Wear := none
  stattrak : Option Bool := none
  souvenir : Option Bool := none
  volume24h : Option String := none
  median7d : Option ℚ := none
  median30d : Option ℚ := none
deriving DecidableEq, Repr

/-- A provider as the aggregator sees it: its stable `name`.  Its `search`
behaviour is supplied separately per aggregation run (`ProviderBehavior`). -/
structure Provider where
  name : String
deriving DecidableEq, Repr

/-- `computeDiscount` of `src/core/aggregator.ts`:
`(median30d − price) / median30d × 100`, undefined when price or median is
missing or the median is zero. -/
def computeDiscount (r : MarketResult) : Option ℚ :=
  match r.price, r.median30d with
  | some p, some m => if m = 0 then none else some ((m - p) / m * 100)
  | _, _ => none

/-- Price sort key: `a.price ?? Number.POSITIVE_INFINITY`. -/
def priceKeyOf (r : MarketResult) : WithTop ℚ :=
  match r.price with
  | some p => (p : WithTop ℚ)
  | none => ⊤

/-- Discount sort key: `computeDiscount(a) ?? Number.NEGATIVE_INFINITY`. -/
def discountKeyOf (r : MarketResult) : WithBot ℚ :=
  match computeDiscount r with
  | some d => (d : WithBot ℚ)
  | none => ⊥

/-- Three-way comparison `compareOfLessAndEq` on a linear order; the sign of a
JS comparator return value (`x − y` or `localeCompare`) is modelled by this
`Ordering`. -/
def cmpK {α : Type} [LinearOrder α] (a b : α) : Ordering :=
  if a < b then .lt else if a = b then .eq else .gt

/-- `sortResults` of `src/core/aggregator.ts` as a three-way comparison: the
strategy-specific leading comparison (descending discount for `discount`,
market name for `market`, item name for `name`, nothing for `price`), then
ascending price with missing prices last, then descending discount with
missing discounts last, then name.  `localeCompare` is modelled as
code-point comparison of the character lists. -/
def sortResults (strategy : SortStrategy) (a b : MarketResult) : Ordering :=
  (match strategy with
    | .discount => cmpK (discountKeyOf b) (discountKeyOf a)
    | .market => cmpK a.market.data b.market.data
    | .name => cmpK a.name.data b.name.data
    | .price => .eq).then
  ((cmpK (priceKeyOf a) (priceKeyOf b)).then
    ((cmpK (discountKeyOf b) (discountKeyOf a)).then
      (cmpK a.name.data b.name.data)))

/-- The "comes no later than" relation induced by the comparator: the
comparator does not return a positive number. -/
def leRes (strategy : SortStrategy) (a b : MarketResult) : Prop :=
  sortResults strategy a b ≠ Ordering.gt

instance (s : SortStrategy) : DecidableRel (leRes s) := fun a b =>
  inferInstanceAs (Decidable (sortResults s a b ≠ Ordering.gt))

/-- `combinedResults.sort((a, b) => sortResults(a, b, strategy))`:
`Array.prototype.sort` is stable (ECMAScript 2019), modelled by the stable
`List.insertionSort`. -/
def sortResultsList (strategy : SortStrategy) (l : List MarketResult) : List MarketResult :=
  List.insertionSort (leRes strategy) l

/-- `matchesQuery` of `src/core/aggregator.ts`: the early-return chain of
defined-mismatch checks (stattrak, souvenir, wear) and price bounds. -/
def matchesQuery (result : MarketResult) (query : SearchQuery) : Bool :=
  if query.stattrak = some true ∧ result.stattrak = some false then false
  else if query.stattrak = some false ∧ result.stattrak = some true then false
  else if query.souvenir = some true ∧ result.souvenir = some false then false
  else if query.souvenir = some false ∧ result.souvenir = some true then false
  else if (match query.wear, result.wear with
           | some qw, some rw => rw != qw
           | _, _ => false) then false
  else if (match query.priceMin, result.price with
           | some _, none => true
           | some m, some p => decide (p < m)
           | none, _ => false) then false
  else if (match query.priceMax, result.price with
           | some _, none => true
           | some m, some p => decide (m < p)
           | none, _ => false) then false
  else true

/-- `ProviderExecution` of `src/core/aggregator.ts`. -/
structure ProviderExecution where
  provider : String
  results : List MarketResult
  durationMs : ℕ
  timedOut : Bool
  error : Option String := none
deriving DecidableEq, Repr

/-- `AggregatedSearchResult` of `src/core/aggregator.ts`. -/
structure AggregatedSearchResult where
  results : List MarketResult
  executions : List ProviderExecution
deriving DecidableEq, Repr

/-- The `Aggregator` state: its registered providers and per-call timeout
(default 9000 ms).  The rate limiters only schedule work and do not change
any per-provider outcome, so they carry no state here. -/
structure Aggregator where
  providers : List Provider
  timeoutMs : ℕ := 9000
deriving DecidableEq, Repr

/-- Observable outcome of one provider's `search` promise inside
`withTimeout`: it fulfils with a result list after `d` ms, rejects with an
error message after `d` ms, or exceeds the timeout budget (the
`withTimeout` race then rejects with `Error('timeout')`). -/
inductive ProviderBehavior
  | succeeds (results : List MarketResult) (d : ℕ)
  | fails (msg : String) (d : ℕ)
  | hangs (d : ℕ)
deriving DecidableEq, Repr

/-- Whether the behaviour is a rejection or timeout. -/
def ProviderBehavior.isFailure : ProviderBehavior → Bool
  | .succeeds _ _ => false
  | _ => true

/-- One provider task of `searchAll` (the body of `providers.map` in
`src/core/aggregator.ts`): on fulfilment the results filtered through
`matchesQuery`; in the catch block `timedOut := err.message === 'timeout'`
and the error message is `'Zeitüberschreitung'` for a timeout, else the
raised message.  A lost timeout race rejects with message `'timeout'`. -/
def runProvider (query : SearchQuery) (p : Provider) (b : ProviderBehavior) :
    ProviderExecution :=
  match b with
  | .succeeds results d =>
    { provider := p.name
      results := results.filter (fun r => matchesQuery r query)
      durationMs := d
      timedOut := false
      error := none }
  | .fails msg d =>
    let timedOut : Bool := msg == "timeout"
    { provider := p.name
      results := []
      durationMs := d
      timedOut := timedOut
      error := some (if timedOut then "Zeitüberschreitung" else msg) }
  | .hangs d =>
    { provider := p.name
      results := []
      durationMs := d
      timedOut := true
      error := some "Zeitüberschreitung" }

/-- `String.prototype.toLowerCase` (ASCII case mapping on the character
list; kernel-reducible, unlike `String.toLower`). -/
def strToLower (s : String) : String := ⟨s.data.map Char.toLower⟩

/-- `Aggregator.resolveProviders`: all registered providers when the request
is absent or empty; otherwise the registered providers whose lower-cased name
is in the lower-cased requested set, falling back (with a warning) to all
providers when nothing matches. -/
def resolveProviders (agg : Aggregator) (requested : Option (List String)) :
    List Provider :=
  match requested with
  | none => agg.providers
  | some req =>
    if req.isEmpty then agg.providers
    else
      let normalized := req.map strToLower
      let selected := agg.providers.filter (fun p => normalized.contains (strToLower p.name))
      if selected.isEmpty then agg.providers else selected

/-- `Aggregator.searchAll`, with every provider call's outcome given by `β`:
resolve the provider set, produce one `ProviderExecution` per provider in
provider-iteration order, concatenate the filtered per-provider results
(`flatMap`), and sort them with `sortResults` under `query.sortBy`
(default `price`). -/
def searchAll (agg : Aggregator) (query : SearchQuery)
    (β : Provider → ProviderBehavior) : AggregatedSearchResult :=
  let provs := resolveProviders agg query.providers
  let executions := provs.map (fun p => runProvider query p (β p))
  let combinedResults := (executions.map (·.results)).flatten
  { results := sortResultsList (query.sortBy.getD .price) combinedResults
    executions := executions }

/-- `CacheEntry` of `src/core/cache.ts`: a value and its absolute expiry
instant in ms. -/
structure CacheEntry (T : Type) where
  value : T
  expiresAt : ℕ
deriving DecidableEq, Repr

/-- Association-list lookup on the cache's backing `Map`. -/
def storeGet {T : Type} : List (String × CacheEntry T) → String → Option (CacheEntry T)
  | [], _ => none
  | (k', e) :: rest, k => if k' = k then some e else storeGet rest k

/-- `Map.prototype.set`: replace in place or append. -/
def storeSet {T : Type} : List (String × CacheEntry T) → String → CacheEntry T →
    List (String × CacheEntry T)
  | [], k, e => [(k, e)]
  | (k', e') :: rest, k, e =>
    if k' = k then (k, e) :: rest else (k', e') :: storeSet rest k e

/-- `Map.prototype.delete` (keys in a `Map` are unique, so removing every
binding of the key models it faithfully). -/
def storeDelete {T : Type} (s : List (String × CacheEntry T)) (k : String) :
    List (String × CacheEntry T) :=
  s.filter (fun p => p.1 ≠ k)

/-- `MemoryCache` of `src/core/cache.ts`. -/
structure MemoryCache (T : Type) where
  defaultTtlSeconds : ℕ := 120
  store : List (String × CacheEntry T) := []

/-- `MemoryCache.get` at clock instant `now`: a present entry whose expiry
instant lies strictly before `now` is deleted and reported absent (lazy,
pull-based eviction); otherwise the stored value is returned.  The returned
cache is the possibly-updated one. -/
def MemoryCache.get {T : Type} (c : MemoryCache T) (now : ℕ) (key : String) :
    Option T × MemoryCache T :=
  match storeGet c.store key with
  | none => (none, c)
  | some e =>
    if e.expiresAt < now then (none, { c with store := storeDelete c.store key })
    else (some e.value, c)

/-- `MemoryCache.set` at clock instant `now`: store the value with expiry
`now + ttl × 1000` ms, the TTL defaulting to the cache's default. -/
def MemoryCache.set {T : Type} (c : MemoryCache T) (now : ℕ) (key : String)
    (value : T) (ttlSeconds : Option ℕ) : MemoryCache T :=
  let ttl := ttlSeconds.getD c.defaultTtlSeconds
  { c with store := storeSet c.store key ⟨value, now + ttl * 1000⟩ }

/-- `MemoryCache.withTtl`: return the cached value when present and
unexpired; otherwise run the fetcher — its raised error propagates — and
store a successful result under the given TTL. -/
def MemoryCache.withTtl {T : Type} (c : MemoryCache T) (now : ℕ) (key : String)
    (ttlSeconds : Option ℕ) (fetcher : Unit → Except String T) :
    Except String T × MemoryCache T :=
  match MemoryCache.get c now key with
  | (some v, c') => (.ok v, c')
  | (none, c') =>
    match fetcher () with
    | .error e => (.error e, c')
    | .ok v => (.ok v, MemoryCache.set c' now key v ttlSeconds)

/-- Default cache TTL (`CACHE_TTL_SECONDS`) when the environment variable is
absent: 120 seconds (same constant in all provider modules). -/
def CACHE_TTL_SECONDS : ℕ := 120

/-- Cache key of `DMarketProvider.search`
(`JSON.stringify({ provider: 'dmarket', text, limit })`, modelled as an
injective tagged concatenation). -/
def dmarketCacheKey (q : SearchQuery) : String :=
  "dmarket:" ++ q.text ++ ":" ++ toString (q.limitPerMarket.getD 5)

/-- Cache key of `WaxpeerProvider.search`. -/
def waxpeerCacheKey (q : SearchQuery) : String :=
  "waxpeer:" ++ q.text ++ ":" ++ toString (q.limitPerMarket.getD 5)

/-- Cache key of `Buff163Provider.search`. -/
def buff163CacheKey (q : SearchQuery) : String :=
  "buff163:" ++ q.text ++ ":" ++ toString (q.limitPerMarket.getD 5)

/-- Cache key of `SkinportProvider.search` (stringify of provider, text,
currency, wear, stattrak, souvenir). -/
def skinportCacheKey (q : SearchQuery) : String :=
  "skinport:" ++ q.text ++ ":" ++ (q.currency.getD "EUR")

/-- `DMarketProvider.search` (src/providers/dmarket.ts).  The body passed to
`cache.withTtl` is `try { ...axios.get + mapping... } catch (error) {
logger.warn(...); return []; }`; the try block's outcome (the result list it
computes, or the error the HTTP call raises) is the `attempt` argument, and
the catch clause is translated exactly: every raised error becomes a
successful empty result list. -/
def dmarketSearch (cache : MemoryCache (List MarketResult)) (now : ℕ)
    (q : SearchQuery) (attempt : Except String (List MarketResult)) :
    Except String (List MarketResult) × MemoryCache (List MarketResult) :=
  cache.withTtl now (dmarketCacheKey q) (some CACHE_TTL_SECONDS) fun _ =>
    match attempt with
    | .error _ => .ok []
    | .ok rs => .ok rs

/-- `WaxpeerProvider.search` (src/providers/waxpeer.ts): same
catch-and-return-empty structure as DMarket. -/
def waxpeerSearch (cache : MemoryCache (List MarketResult)) (now : ℕ)
    (q : SearchQuery) (attempt : Except String (List MarketResult)) :
    Except String (List MarketResult) × MemoryCache (List MarketResult) :=
  cache.withTtl now (waxpeerCacheKey q) (some CACHE_TTL_SECONDS) fun _ =>
    match attempt with
    | .error _ => .ok []
    | .ok rs => .ok rs

/-- `Buff163Provider.search` (the unnamed provider module): same
catch-and-return-empty structure as DMarket. -/
def buff163Search (cache : MemoryCache (List MarketResult)) (now : ℕ)
    (q : SearchQuery) (attempt : Except String (List MarketResult)) :
    Except String (List MarketResult) × MemoryCache (List MarketResult) :=
  cache.withTtl now (buff163CacheKey q) (some CACHE_TTL_SECONDS) fun _ =>
    match attempt with
    | .error _ => .ok []
    | .ok rs => .ok rs

/-- `SkinportProvider.search` (src/providers/skinport.ts): the fetcher body
has no try/catch, so a raised upstream error propagates out of `withTtl` and
rejects the `search` promise. -/
def skinportSearch (cache : MemoryCache (List MarketResult)) (now : ℕ)
    (q : SearchQuery) (attempt : Except String (List MarketResult)) :
    Except String (List MarketResult) × MemoryCache (List MarketResult) :=
  cache.withTtl now (skinportCacheKey q) (some CACHE_TTL_SECONDS) fun _ => attempt

/-- Lexicographic sort key realising the `price` strategy comparator:
ascending price with missing prices last, then descending discount with
missing discounts last, then name. -/
def keyPrice (r : MarketResult) : WithTop ℚ ×ₗ ((WithBot ℚ)ᵒᵈ ×ₗ List Char) :=
  toLex (priceKeyOf r, toLex (OrderDual.toDual (discountKeyOf r), r.name.data))

/-- Lexicographic sort key realising the `discount` strategy comparator. -/
def keyDiscount (r : MarketResult) :
    (WithBot ℚ)ᵒᵈ ×ₗ (WithTop ℚ ×ₗ ((WithBot ℚ)ᵒᵈ ×ₗ List Char)) :=
  toLex (OrderDual.toDual (discountKeyOf r), keyPrice r)

/-- Lexicographic sort key realising the `market` strategy comparator. -/
def keyMarket (r : MarketResult) :
    List Char ×ₗ (WithTop ℚ ×ₗ ((WithBot ℚ)ᵒᵈ ×ₗ List Char)) :=
  toLex (r.market.data, keyPrice r)

/-- Lexicographic sort key realising the `name` strategy comparator. -/
def keyName (r : MarketResult) :
    List Char ×ₗ (WithTop ℚ ×ₗ ((WithBot ℚ)ᵒᵈ ×ₗ List Char)) :=
  toLex (r.name.data, keyPrice r)

/-- Concrete fixture: two listings with equal name and price but different
markets — the comparator cannot tell them apart. -/
def tieResultA : MarketResult :=
  { market := "A", name := "X", currency := "USD", price := some 1 }

/-- Concrete fixture: `tieResultA` on another market. -/
def tieResultB : MarketResult := { tieResultA with market := "B" }

/-- Concrete fixture: a well-priced listing used by the witnesses. -/
def sampleResult : MarketResult :=
  { market := "DMarket", name := "AWP | Printstream (Field-Tested)",
    currency := "USD", price := some 100, median30d := some 120 }

/-- Concrete fixture: a two-provider aggregator. -/
def sampleAggregator : Aggregator := { providers := [⟨"Steam"⟩, ⟨"DMarket"⟩] }

/-- Concrete fixture: a plain query. -/
def sampleQuery : SearchQuery := { text := "awp" }

/-- Concrete fixture: the Steam provider rejects, DMarket succeeds. -/
def sampleBehavior : Provider → ProviderBehavior := fun p =>
  if p.name = "Steam" then .fails "boom" 50 else .succeeds [sampleResult] 100

/-! ### Helper lemmas -/

theorem storeGet_storeSet {T : Type} (s : List (String × CacheEntry T)) (k : String)
    (e : CacheEntry T) : storeGet (storeSet s k e) k = some e := by
  induction s with
  | nil => simp [storeSet, storeGet]
  | cons p rest ih =>
    obtain ⟨k', e'⟩ := p
    by_cases h : k' = k
    · simp [storeSet, storeGet, h]
    · simp [storeSet, storeGet, h, ih]

theorem storeGet_storeDelete {T : Type} (s : List (String × CacheEntry T)) (k : String) :
    storeGet (storeDelete s k) k = none := by
  induction s with
  | nil => simp [storeDelete, storeGet]
  | cons p rest ih =>
    obtain ⟨k', e'⟩ := p
    by_cases h : k' = k
    · simpa [storeDelete, h] using ih
    · simpa [storeDelete, storeGet, h] using ih

theorem withTtl_of_miss {T : Type} (c : MemoryCache T) (now : ℕ) (key : String)
    (ttl : Option ℕ) (f : Unit → Except String T)
    (h : (c.get now key).1 = none) : (c.withTtl now key ttl f).1 = f () := by
  unfold MemoryCache.withTtl
  rcases hg : c.get now key with ⟨fst, snd⟩
  rw [hg] at h
  simp only at h
  subst h
  cases hf : f () <;> simp [hf]

/-- C8: after `set(k, v, 1s)` at instant `t`, an immediate `get(k)` returns
`v`; a `get(k)` at instant `t + 1100` ms reports the value absent and removes
the entry from the store (lazy expiry by comparing the stored expiry instant
with the current clock). -/
theorem memoryCache_ttl_expiry {T : Type} (c : MemoryCache T) (k : String) (v : T)
    (t : ℕ) :
    ((c.set t k v (some 1)).get t k).1 = some v ∧
    ((c.set t k v (some 1)).get (t + 1100) k).1 = none ∧
    storeGet ((c.set t k v (some 1)).get (t + 1100) k).2.store k = none := by
  have hset : storeGet (c.set t k v (some 1)).store k = some ⟨v, t + 1 * 1000⟩ := by
    simp [MemoryCache.set]
    exact storeGet_storeSet c.store k _
  refine ⟨?_, ?_, ?_⟩
  · simp [MemoryCache.get, hset]
  · simp [MemoryCache.get, hset]
  · simp [MemoryCache.get, hset]
    exact storeGet_storeDelete _ k

/-- C10: the catch block classifies a timeout solely by the caught error's
message being the literal `'timeout'`.  A provider that rejects with message
`'timeout'` after `d` ms — even with `d` strictly below the budget — produces
exactly the same `ProviderExecution` as a provider that genuinely exceeded
the timeout: `timedOut = true` and the timeout error marker. -/
theorem timeout_classification_by_message (agg : Aggregator) (q : SearchQuery)
    (p : Provider) (d : ℕ) (_hd : d < agg.timeoutMs) :
    runProvider q p (ProviderBehavior.fails "timeout" d) =
      runProvider q p (ProviderBehavior.hangs d) ∧
    (runProvider q p (ProviderBehavior.fails "timeout" d)).timedOut = true ∧
    (runProvider q p (ProviderBehavior.fails "timeout" d)).error =
      some "Zeitüberschreitung" := by
  refine ⟨?_, rfl, rfl⟩
  rfl

/-- Witness for C10 at a concrete provider, query and duration. -/
theorem timeout_classification_by_message_witness :
    runProvider { text := "awp" } ⟨"Steam"⟩ (ProviderBehavior.fails "timeout" 50) =
      runProvider { text := "awp" } ⟨"Steam"⟩ (ProviderBehavior.hangs 50) ∧
    (runProvider { text := "awp" } ⟨"Steam"⟩
        (ProviderBehavior.fails "timeout" 50)).timedOut = true ∧
    (runProvider { text := "awp" } ⟨"Steam"⟩
        (ProviderBehavior.fails "timeout" 50)).error = some "Zeitüberschreitung" :=
  timeout_classification_by_message { providers := [⟨"Steam"⟩] } { text := "awp" }
    ⟨"Steam"⟩ 50 (by decide)

/-- C9 counterexample: `Buff163Provider.search` does not raise on an
unrecoverable upstream failure; with an empty cache and the HTTP request
rejecting with `'ECONNREFUSED'`, it resolves successfully with the empty
result list. -/
theorem buff163_swallows_upstream_error :
    (buff163Search ⟨120, []⟩ 0 { text := "awp" } (.error "ECONNREFUSED")).1 =
      .ok [] := by
  rfl

/-- C9 amended: on an unrecoverable upstream failure (cache miss), the
DMarket, Waxpeer and BUFF163 providers catch the error and resolve with an
empty result list; only the Skinport provider rejects, propagating the
error to its caller. -/
theorem providerSearch_error_behavior (c1 c2 c3 c4 : MemoryCache (List MarketResult))
    (now : ℕ) (q : SearchQuery) (e : String)
    (h1 : (c1.get now (dmarketCacheKey q)).1 = none)
    (h2 : (c2.get now (waxpeerCacheKey q)).1 = none)
    (h3 : (c3.get now (buff163CacheKey q)).1 = none)
    (h4 : (c4.get now (skinportCacheKey q)).1 = none) :
    (dmarketSearch c1 now q (.error e)).1 = .ok [] ∧
    (waxpeerSearch c2 now q (.error e)).1 = .ok [] ∧
    (buff163Search c3 now q (.error e)).1 = .ok [] ∧
    (skinportSearch c4 now q (.error e)).1 = .error e := by
  refine ⟨?_, ?_, ?_, ?_⟩
  · rw [dmarketSearch, withTtl_of_miss _ _ _ _ _ h1]
  · rw [waxpeerSearch, withTtl_of_miss _ _ _ _ _ h2]
  · rw [buff163Search, withTtl_of_miss _ _ _ _ _ h3]
  · rw [skinportSearch, withTtl_of_miss _ _ _ _ _ h4]

/-- Witness for C9's amended statement at a fresh cache and concrete query. -/
theorem providerSearch_error_behavior_witness :
    (dmarketSearch ⟨120, []⟩ 0 { text := "awp" } (.error "boom")).1 = .ok [] ∧
    (waxpeerSearch ⟨120, []⟩ 0 { text := "awp" } (.error "boom")).1 = .ok [] ∧
    (buff163Search ⟨120, []⟩ 0 { text := "awp" } (.error "boom")).1 = .ok [] ∧
    (skinportSearch ⟨120, []⟩ 0 { text := "awp" } (.error "boom")).1 =
      .error "boom" :=
  providerSearch_error_behavior ⟨120, []⟩ ⟨120, []⟩ ⟨120, []⟩ ⟨120, []⟩ 0
    { text := "awp" } "boom" rfl rfl rfl rfl

/-- C7: provider resolution.  An absent or empty request selects all
registered providers; a non-empty request selects exactly the registered
providers whose name case-insensitively equals a requested name; and when
nothing matches, the full registered set is used instead of failing. -/
theorem resolveProviders_selection (agg : Aggregator) (req : List String) :
    resolveProviders agg none = agg.providers ∧
    resolveProviders agg (some []) = agg.providers ∧
    (req ≠ [] →
      (agg.providers.filter
          (fun p => (req.map strToLower).contains (strToLower p.name)) ≠ [] →
        resolveProviders agg (some req) =
          agg.providers.filter
            (fun p => (req.map strToLower).contains (strToLower p.name))) ∧
      (agg.providers.filter
          (fun p => (req.map strToLower).contains (strToLower p.name)) = [] →
        resolveProviders agg (some req) = agg.providers)) := by
  refine ⟨rfl, rfl, fun hreq => ⟨fun hsel => ?_, fun hsel => ?_⟩⟩
  · rw [resolveProviders]
    simp only [List.isEmpty_iff, hreq, if_false]
    rw [if_neg]
    simpa using hsel
  · rw [resolveProviders]
    simp only [List.isEmpty_iff, hreq, if_false]
    rw [if_pos]
    simpa using hsel

/-- Witness for C7: requesting `["STEAM"]` among two providers selects
exactly the provider named `Steam`, case-insensitively. -/
theorem resolveProviders_selection_witness :
    resolveProviders { providers := [⟨"Steam"⟩, ⟨"DMarket"⟩] } (some ["STEAM"]) =
      [⟨"Steam"⟩] := by
  rw [((resolveProviders_selection { providers := [⟨"Steam"⟩, ⟨"DMarket"⟩] }
      ["STEAM"]).2.2 (by decide)).1 (by decide)]
  decide

/-- C4: tri-state stattrak filtering in `matchesQuery`.  A `stattrak = true`
query never passes a result with `stattrak = false` and a `stattrak = false`
query never passes a result with `stattrak = true`; when the query leaves
stattrak undefined, the filter's verdict is independent of the result's
stattrak flag. -/
theorem matchesQuery_stattrak_tristate (q : SearchQuery) (r : MarketResult)
    (b : Option Bool) :
    (q.stattrak = some true → matchesQuery r q = true → r.stattrak ≠ some false) ∧
    (q.stattrak = some false → matchesQuery r q = true → r.stattrak ≠ some true) ∧
    (q.stattrak = none →
      matchesQuery { r with stattrak := b } q = matchesQuery r q) := by
  refine ⟨fun hq hm hc => ?_, fun hq hm hc => ?_, fun hq => ?_⟩
  · rw [matchesQuery] at hm
    simp [hq, hc] at hm
  · rw [matchesQuery] at hm
    simp [hq, hc] at hm
  · simp [matchesQuery, hq]

/-- Witness for C4: a concrete StatTrak-pinned query and a matching result. -/
theorem matchesQuery_stattrak_tristate_witness :
    ({ market := "A", name := "X", currency := "USD",
       stattrak := some true } : MarketResult).stattrak ≠ some false :=
  (matchesQuery_stattrak_tristate { text := "awp", stattrak := some true }
      { market := "A", name := "X", currency := "USD", stattrak := some true }
      none).1 rfl (by decide)

/-- C2: the merged result list of `searchAll` is a permutation of the
concatenation of the per-provider filtered result lists recorded in the
executions (nothing is duplicated or fabricated), so its length is bounded
by the sum of the per-provider result counts. -/
theorem searchAll_merge_length_bound (agg : Aggregator) (q : SearchQuery)
    (β : Provider → ProviderBehavior) :
    (searchAll agg q β).results.Perm
      (((searchAll agg q β).executions.map (·.results)).flatten) ∧
    (searchAll agg q β).results.length ≤
      ((searchAll agg q β).executions.map (fun e => e.results.length)).sum := by
  have hperm :
      (searchAll agg q β).results.Perm
        (((searchAll agg q β).executions.map (·.results)).flatten) := by
    rw [searchAll]
    exact List.perm_insertionSort _ _
  refine ⟨hperm, ?_⟩
  rw [hperm.length_eq, List.length_flatten, List.map_map]
  exact le_of_eq rfl

/-- C1: per-provider failure isolation in `searchAll`.  When the provider at
position `i` of the resolved provider set rejects or times out, `searchAll`
still produces a full execution report (one entry per resolved provider); the
failing provider's entry carries an empty result list and an error message;
and any other provider's entry is unchanged under any reassignment of the
failing provider's behaviour, so sibling results are unaffected and no
individual failure can reject `searchAll`. -/
theorem searchAll_isolates_provider_failure (agg : Aggregator) (q : SearchQuery)
    (β β' : Provider → ProviderBehavior) (i j : ℕ) (pi pj : Provider)
    (hpi : (resolveProviders agg q.providers)[i]? = some pi)
    (hpj : (resolveProviders agg q.providers)[j]? = some pj)
    (hfail : (β pi).isFailure = true)
    (hagree : ∀ p : Provider, p ≠ pi → β' p = β p)
    (hne : pj ≠ pi) :
    (searchAll agg q β).executions.length = (resolveProviders agg q.providers).length ∧
    (∃ ex, (searchAll agg q β).executions[i]? = some ex ∧
      ex.provider = pi.name ∧ ex.results = [] ∧ ex.error.isSome = true) ∧
    (searchAll agg q β').executions[j]? = (searchAll agg q β).executions[j]? := by
  refine ⟨?_, ?_, ?_⟩
  · rw [searchAll]
    exact List.length_map _ _
  · refine ⟨runProvider q pi (β pi), ?_, ?_⟩
    · rw [searchAll]
      simp only [List.getElem?_map, hpi, Option.map_some']
    · cases hb : β pi with
      | succeeds rs d =>
        rw [hb] at hfail
        simp [ProviderBehavior.isFailure] at hfail
      | fails msg d =>
        refine ⟨rfl, rfl, ?_⟩
        simp [runProvider]
      | hangs d =>
        exact ⟨rfl, rfl, rfl⟩
  · rw [searchAll, searchAll]
    simp only [List.getElem?_map, hpj, Option.map_some']
    rw [hagree pj hne]

/-- Witness for C1: with the Steam provider rejecting and DMarket
succeeding, the report has two entries, Steam's entry is empty with an
error, and DMarket's entry is untouched. -/
theorem searchAll_isolates_provider_failure_witness :
    (searchAll sampleAggregator sampleQuery sampleBehavior).executions.length =
      (resolveProviders sampleAggregator sampleQuery.providers).length ∧
    (∃ ex, (searchAll sampleAggregator sampleQuery sampleBehavior).executions[0]? =
        some ex ∧ ex.provider = (Provider.mk "Steam").name ∧ ex.results = [] ∧
        ex.error.isSome = true) ∧
    (searchAll sampleAggregator sampleQuery sampleBehavior).executions[1]? =
      (searchAll sampleAggregator sampleQuery sampleBehavior).executions[1]? :=
  searchAll_isolates_provider_failure sampleAggregator sampleQuery sampleBehavior
    sampleBehavior 0 1 ⟨"Steam"⟩ ⟨"DMarket"⟩ rfl rfl (by decide)
    (fun _ _ => rfl) (by decide)

theorem cmpK_eq_lt {α : Type} [LinearOrder α] {a b : α} :
    cmpK a b = Ordering.lt ↔ a < b := by
  unfold cmpK
  split_ifs with h1 h2 <;> simp_all

theorem cmpK_eq_eq {α : Type} [LinearOrder α] {a b : α} :
    cmpK a b = Ordering.eq ↔ a = b := by
  unfold cmpK
  split_ifs with h1 h2 <;> simp_all
  exact ne_of_lt h1

theorem cmpK_eq_gt {α : Type} [LinearOrder α] {a b : α} :
    cmpK a b = Ordering.gt ↔ b < a := by
  unfold cmpK
  split_ifs with h1 h2 <;> simp_all
  · exact le_of_lt h1
  · exact lt_of_le_of_ne h1 fun hc => h2 hc.symm

theorem cmpK_ne_gt {α : Type} [LinearOrder α] {a b : α} :
    cmpK a b ≠ Ordering.gt ↔ a ≤ b := by
  rw [Ne, cmpK_eq_gt, not_lt]

theorem cmpK_toDual {α : Type} [LinearOrder α] (a b : α) :
    cmpK (OrderDual.toDual a) (OrderDual.toDual b) = cmpK b a := by
  unfold cmpK
  rcases lt_trichotomy b a with h | h | h
  · rw [if_pos (OrderDual.toDual_lt_toDual.mpr h), if_pos h]
  · subst h
    simp
  · rw [if_neg (by simpa using not_lt_of_gt h), if_neg (by simpa using ne_of_lt h),
      if_neg (not_lt_of_gt h), if_neg (ne_of_gt h)]

theorem cmpK_lex {α β : Type} [LinearOrder α] [LinearOrder β]
    (a₁ b₁ : α) (a₂ b₂ : β) :
    cmpK (toLex (a₁, a₂)) (toLex (b₁, b₂)) = (cmpK a₁ b₁).then (cmpK a₂ b₂) := by
  rcases lt_trichotomy a₁ b₁ with h | h | h
  · have hlt : toLex (a₁, a₂) < toLex (b₁, b₂) := (Prod.Lex.lt_iff _ _).mpr (.inl h)
    rw [cmpK, if_pos hlt, cmpK, if_pos h]
    rfl
  · subst h
    have hK : cmpK a₁ a₁ = Ordering.eq := cmpK_eq_eq.mpr rfl
    rw [hK]
    rcases lt_trichotomy a₂ b₂ with h2 | h2 | h2
    · have hlt : toLex (a₁, a₂) < toLex (a₁, b₂) :=
        (Prod.Lex.lt_iff _ _).mpr (.inr ⟨rfl, h2⟩)
      rw [cmpK, if_pos hlt, cmpK, if_pos h2]
      rfl
    · subst h2
      rw [cmpK_eq_eq.mpr rfl, cmpK_eq_eq.mpr rfl]
      rfl
    · have hnlt : ¬ toLex (a₁, a₂) < toLex (a₁, b₂) := by
        intro hc
        rcases (Prod.Lex.lt_iff _ _).mp hc with h' | h'
        · exact lt_irrefl _ h'
        · exact absurd h'.2 (not_lt_of_gt h2)
      have hne : toLex (a₁, a₂) ≠ toLex (a₁, b₂) := by
        rw [Ne, toLex_inj, Prod.mk.injEq]
        exact fun hc => absurd hc.2 (ne_of_gt h2)
      rw [cmpK, if_neg hnlt, if_neg hne, cmpK, if_neg (not_lt_of_gt h2),
        if_neg (ne_of_gt h2)]
      rfl
  · have hnlt : ¬ toLex (a₁, a₂) < toLex (b₁, b₂) := by
      intro hc
      rcases (Prod.Lex.lt_iff _ _).mp hc with h' | h'
      · exact absurd h' (not_lt_of_gt h)
      · exact absurd h'.1 (ne_of_gt h)
    have hne : toLex (a₁, a₂) ≠ toLex (b₁, b₂) := by
      rw [Ne, toLex_inj, Prod.mk.injEq]
      exact fun hc => absurd hc.1 (ne_of_gt h)
    rw [cmpK, if_neg hnlt, if_neg hne, cmpK, if_neg (not_lt_of_gt h),
      if_neg (ne_of_gt h)]
    rfl

theorem sortResults_eq_keyPrice (a b : MarketResult) :
    sortResults .price a b = cmpK (keyPrice a) (keyPrice b) := by
  simp only [sortResults, keyPrice, cmpK_lex, cmpK_toDual]
  rfl

theorem sortResults_eq_keyDiscount (a b : MarketResult) :
    sortResults .discount a b = cmpK (keyDiscount a) (keyDiscount b) := by
  simp only [sortResults, keyDiscount, keyPrice, cmpK_lex, cmpK_toDual]

theorem sortResults_eq_keyMarket (a b : MarketResult) :
    sortResults .market a b = cmpK (keyMarket a) (keyMarket b) := by
  simp only [sortResults, keyMarket, keyPrice, cmpK_lex, cmpK_toDual]

theorem sortResults_eq_keyName (a b : MarketResult) :
    sortResults .name a b = cmpK (keyName a) (keyName b) := by
  simp only [sortResults, keyName, keyPrice, cmpK_lex, cmpK_toDual]

theorem leRes_trans (s : SortStrategy) :
    ∀ a b c, leRes s a b → leRes s b c → leRes s a c := by
  intro a b c hab hbc
  cases s
  · rw [leRes, sortResults_eq_keyPrice, cmpK_ne_gt] at *
    exact le_trans hab hbc
  · rw [leRes, sortResults_eq_keyDiscount, cmpK_ne_gt] at *
    exact le_trans hab hbc
  · rw [leRes, sortResults_eq_keyMarket, cmpK_ne_gt] at *
    exact le_trans hab hbc
  · rw [leRes, sortResults_eq_keyName, cmpK_ne_gt] at *
    exact le_trans hab hbc

theorem leRes_total (s : SortStrategy) : ∀ a b, leRes s a b ∨ leRes s b a := by
  intro a b
  cases s
  · rw [leRes, leRes, sortResults_eq_keyPrice, sortResults_eq_keyPrice,
      cmpK_ne_gt, cmpK_ne_gt]
    exact le_total _ _
  · rw [leRes, leRes, sortResults_eq_keyDiscount, sortResults_eq_keyDiscount,
      cmpK_ne_gt, cmpK_ne_gt]
    exact le_total _ _
  · rw [leRes, leRes, sortResults_eq_keyMarket, sortResults_eq_keyMarket,
      cmpK_ne_gt, cmpK_ne_gt]
    exact le_total _ _
  · rw [leRes, leRes, sortResults_eq_keyName, sortResults_eq_keyName,
      cmpK_ne_gt, cmpK_ne_gt]
    exact le_total _ _

/-- C3 counterexample: for the `price` strategy, reversing the input order
changes the sorted output.  The two listings tie on every compared field
(price, discount, name) but differ in market; the stable sort keeps their
input order, so sorting the reversed list yields the reversed pair. -/
theorem sortResults_reverse_counterexample :
    sortResultsList .price ([tieResultA, tieResultB].reverse) ≠
      sortResultsList .price [tieResultA, tieResultB] := by
  decide

/-- C3 amended: for every strategy, sorting is idempotent (a sorted list is
left unchanged, so (a) holds); sorting the reversed input yields the same
multiset, again sorted under the comparator's order — but only up to
permutation, since results that tie on all compared fields retain their
input order (stable sort), as the counterexample shows. -/
theorem sortResults_total_order_amended (s : SortStrategy) (l : List MarketResult) :
    sortResultsList s (sortResultsList s l) = sortResultsList s l ∧
    (sortResultsList s l.reverse).Perm (sortResultsList s l) ∧
    (sortResultsList s l).Sorted (leRes s) := by
  haveI : IsTotal MarketResult (leRes s) := ⟨leRes_total s⟩
  haveI : IsTrans MarketResult (leRes s) := ⟨leRes_trans s⟩
  have hs : (sortResultsList s l).Sorted (leRes s) := List.sorted_insertionSort _ l
  refine ⟨hs.insertionSort_eq, ?_, hs⟩
  exact (List.perm_insertionSort _ _).trans
    ((l.reverse_perm).trans (List.perm_insertionSort (leRes s) l).symm)

set_option maxRecDepth 40000 in
/-- C5 counterexample: the candidate set for `"awp printstream"` does not
contain `"AWP | PrintStream"` — `titleizeWord` lower-cases the tail of a long
word, producing `"Printstream"`, not the camel-cased `"PrintStream"`. -/
theorem inferCandidates_printstream_counterexample :
    "AWP | PrintStream" ∉ inferCandidates "awp printstream" none none none := by
  decide

set_option maxRecDepth 40000 in
/-- C5 amended: for input `"awp printstream"` with no flags pinned, the
candidate set contains `"AWP | Printstream"` (title-casing lower-cases the
rest of each long word) and, for each of the 5 wear tiers, a candidate
ending in `" (<Wear>)"`. -/
theorem inferCandidates_awp_printstream :
    "AWP | Printstream" ∈ inferCandidates "awp printstream" none none none ∧
    (WEARS.all fun w =>
      (inferCandidates "awp printstream" none none none).any fun c =>
        strEndsWith c (" (" ++ wearName w ++ ")")) = true := by
  constructor
  · decide
  · decide

theorem mem_foldl_addUnique {α : Type} [DecidableEq α] (l : List α) (x : α) :
    ∀ acc, (x ∈ l.foldl (fun acc y => if y ∈ acc then acc else acc ++ [y]) acc) ↔
      x ∈ acc ∨ x ∈ l := by
  induction l with
  | nil => intro acc; simp
  | cons y t ih =>
    intro acc
    by_cases hy : y ∈ acc
    · rw [List.foldl_cons, if_pos hy, ih]
      constructor
      · rintro (h | h)
        · exact .inl h
        · exact .inr (List.mem_cons_of_mem _ h)
      · rintro (h | h)
        · exact .inl h
        · rcases List.mem_cons.mp h with rfl | h
          · exact .inl hy
          · exact .inr h
    · rw [List.foldl_cons, if_neg hy, ih]
      constructor
      · rintro (h | h)
        · rcases List.mem_append.mp h with h | h
          · exact .inl h
          · exact .inr (List.mem_cons.mpr (.inl (by simpa using h)))
        · exact .inr (List.mem_cons_of_mem _ h)
      · rintro (h | h)
        · exact .inl (List.mem_append.mpr (.inl h))
        · rcases List.mem_cons.mp h with rfl | h
          · exact .inl (by simp)
          · exact .inr h

theorem mem_dedupKeepFirst {α : Type} [DecidableEq α] {x : α} {l : List α} :
    x ∈ dedupKeepFirst l ↔ x ∈ l := by
  rw [dedupKeepFirst, mem_foldl_addUnique]
  simp

theorem pipe_mem_normPipesAux {l : List Char} (h : '|' ∈ l) :
    ∀ pnd ap, '|' ∈ normPipesAux pnd ap l := by
  induction l with
  | nil => simp at h
  | cons c rest ih =>
    intro pnd ap
    rw [normPipesAux]
    by_cases hc : c = '|'
    · rw [if_pos hc]
      simp
    · have hrest : '|' ∈ rest := by
        rcases List.mem_cons.mp h with h' | h'
        · exact absurd h'.symm hc
        · exact h'
      rw [if_neg hc]
      by_cases hw : c.isWhitespace
      · rw [if_pos hw]
        by_cases hap : ap <;> simp [hap, ih hrest]
      · rw [if_neg hw]
        simp [ih hrest]

theorem mem_normPipesAux {ch : Char} :
    ∀ (l : List Char) pnd ap, ch ∈ normPipesAux pnd ap l →
      ch ∈ l ∨ ch ∈ pnd ∨ ch = ' ' ∨ ch = '|' := by
  intro l
  induction l with
  | nil =>
    intro pnd ap h
    rw [normPipesAux] at h
    exact .inr (.inl (List.mem_reverse.mp h))
  | cons c rest ih =>
    intro pnd ap h
    rw [normPipesAux] at h
    by_cases hc : c = '|'
    · rw [if_pos hc] at h
      rcases List.mem_cons.mp h with rfl | h
      · exact .inr (.inr (.inl rfl))
      · rcases List.mem_cons.mp h with rfl | h
        · exact .inr (.inr (.inr rfl))
        · rcases List.mem_cons.mp h with rfl | h
          · exact .inr (.inr (.inl rfl))
          · rcases ih _ _ h with h' | h' | h' | h'
            · exact .inl (List.mem_cons_of_mem _ h')
            · simp at h'
            · exact .inr (.inr (.inl h'))
            · exact .inr (.inr (.inr h'))
    · rw [if_neg hc] at h
      by_cases hw : c.isWhitespace
      · rw [if_pos hw] at h
        by_cases hap : ap
        · rw [if_pos hap] at h
          rcases ih _ _ h with h' | h' | h' | h'
          · exact .inl (List.mem_cons_of_mem _ h')
          · simp at h'
          · exact .inr (.inr (.inl h'))
          · exact .inr (.inr (.inr h'))
        · rw [if_neg hap] at h
          rcases ih _ _ h with h' | h' | h' | h'
          · exact .inl (List.mem_cons_of_mem _ h')
          · rcases List.mem_cons.mp h' with rfl | h'
            · exact .inl (List.mem_cons_self _ _)
            · exact .inr (.inl h')
          · exact .inr (.inr (.inl h'))
          · exact .inr (.inr (.inr h'))
      · rw [if_neg hw] at h
        rcases List.mem_append.mp h with h' | h'
        · exact .inr (.inl (List.mem_reverse.mp h'))
        · rcases List.mem_cons.mp h' with rfl | h'
          · exact .inl (List.mem_cons_self _ _)
          · rcases ih _ _ h' with h'' | h'' | h'' | h''
            · exact .inl (List.mem_cons_of_mem _ h'')
            · simp at h''
            · exact .inr (.inr (.inl h''))
            · exact .inr (.inr (.inr h''))

theorem normPipesAux_pending_space (m : List Char) :
    ∀ pnd, ∃ q, normPipesAux (pnd ++ [' ']) false m = ' ' :: q := by
  induction m with
  | nil =>
    intro pnd
    exact ⟨pnd.reverse, by simp [normPipesAux]⟩
  | cons c rest ih =>
    intro pnd
    by_cases hc : c = '|'
    · exact ⟨'|' :: ' ' :: normPipesAux [] true rest, by rw [normPipesAux, if_pos hc]⟩
    · by_cases hw : c.isWhitespace
      · obtain ⟨q, hq⟩ := ih (c :: pnd)
        refine ⟨q, ?_⟩
        rw [normPipesAux, if_neg hc, if_pos hw, if_neg (by simp)]
        simpa using hq
      · exact ⟨pnd.reverse ++ c :: normPipesAux [] false rest, by
          rw [normPipesAux, if_neg hc, if_neg hw]
          simp⟩

theorem normPipes_pre : ∀ (n : ℕ) (p : List Char), p.length ≤ n → okPre p = true →
    ∀ m, ∃ q, normPipesAux [] false (p ++ (' ' :: m)) = p ++ (' ' :: q) := by
  intro n
  induction n with
  | zero =>
    intro p hlen _ m
    have hp : p = [] := by cases p <;> simp_all
    subst hp
    simp only [List.nil_append]
    rw [normPipesAux, if_neg (by decide), if_pos (by decide), if_neg (by simp)]
    obtain ⟨q, hq⟩ := normPipesAux_pending_space m []
    exact ⟨q, by simpa using hq⟩
  | succ n ih =>
    intro p hlen hok m
    match p with
    | [] =>
      simp only [List.nil_append]
      rw [normPipesAux, if_neg (by decide), if_pos (by decide), if_neg (by simp)]
      obtain ⟨q, hq⟩ := normPipesAux_pending_space m []
      exact ⟨q, by simpa using hq⟩
    | c :: rest =>
      simp only [okPre] at hok
      have hc : c ≠ '|' := by
        intro hcc
        rw [if_pos hcc] at hok
        exact Bool.false_ne_true hok
      rw [if_neg hc] at hok
      by_cases hw : c.isWhitespace
      · rw [if_pos hw] at hok
        match rest with
        | [] => exact absurd hok Bool.false_ne_true
        | d :: rest' =>
          simp only [Bool.and_eq_true, decide_eq_true_eq] at hok
          obtain ⟨⟨hd1, hd2⟩, hok'⟩ := hok
          have hok'' : okPre rest' = true := by
            cases rest' with
            | nil => rfl
            | cons e rest'' =>
              simp only [okPre] at hok'
              rw [if_neg hd2, if_neg (by simpa using hd1)] at hok'
              exact hok'
          obtain ⟨q, hq⟩ := ih rest' (by simp at hlen; omega) hok'' m
          refine ⟨q, ?_⟩
          rw [List.cons_append, normPipesAux, if_neg hc, if_pos hw, if_neg (by simp)]
          rw [List.cons_append, normPipesAux]
          rw [if_neg hd2, if_neg (by simpa using hd1)]
          simp only [List.reverse_cons, List.reverse_nil, List.nil_append,
            List.singleton_append]
          rw [hq]
          rfl
      · rw [if_neg hw] at hok
        obtain ⟨q, hq⟩ := ih rest (by simpa using hlen) hok m
        refine ⟨q, ?_⟩
        rw [List.cons_append, normPipesAux, if_neg hc, if_neg hw]
        simp only [List.reverse_nil, List.nil_append]
        rw [hq]
        rfl

theorem dropWhile_append_left {α : Type} (p : α → Bool) (a b : List α)
    (ha : ∃ ch ∈ a, p ch = false) :
    (a ++ b).dropWhile p = a.dropWhile p ++ b := by
  induction a with
  | nil => simp at ha
  | cons x t ih =>
    by_cases hx : p x
    · have ht : ∃ ch ∈ t, p ch = false := by
        obtain ⟨ch, hch, hp⟩ := ha
        rcases List.mem_cons.mp hch with rfl | hch
        · exact absurd hx (by simp [hp])
        · exact ⟨ch, hch, hp⟩
      simp only [List.cons_append, List.dropWhile_cons, hx, if_true]
      exact ih ht
    · simp only [List.cons_append, List.dropWhile_cons, hx]
      simp [hx]

theorem trim_pre (c0 : Char) (p m : List Char) (h0 : c0.isWhitespace = false)
    (hm : ∃ ch ∈ m, ch.isWhitespace = false) :
    trimChars ((c0 :: p) ++ m) = (c0 :: p) ++ trimRightChars m := by
  rw [trimChars]
  have h1 : ((c0 :: p) ++ m).dropWhile (·.isWhitespace) = (c0 :: p) ++ m := by
    simp [List.dropWhile_cons, h0]
  rw [h1, trimRightChars, List.reverse_append, dropWhile_append_left _ _ _
    (by obtain ⟨ch, hch, hp⟩ := hm; exact ⟨ch, List.mem_reverse.mpr hch, hp⟩)]
  rw [List.reverse_append, List.reverse_reverse, trimRightChars]

theorem mem_squashWsAux_ws {ch : Char} :
    ∀ (b : Bool) (l : List Char), ch ∈ squashWsAux b l →
      ch.isWhitespace = true → ch = ' ' := by
  intro b l
  induction l generalizing b with
  | nil => intro h; simp [squashWsAux] at h
  | cons c rest ih =>
    intro h hws
    rw [squashWsAux] at h
    by_cases hc : c.isWhitespace
    · rw [if_pos hc] at h
      by_cases hb : b
      · rw [if_pos hb] at h
        exact ih _ h hws
      · rw [if_neg hb] at h
        rcases List.mem_cons.mp h with rfl | h
        · rfl
        · exact ih _ h hws
    · rw [if_neg hc] at h
      rcases List.mem_cons.mp h with rfl | h
      · exact absurd hws (by simpa using hc)
      · exact ih _ h hws

theorem mem_trimChars {ch : Char} {l : List Char} (h : ch ∈ trimChars l) : ch ∈ l := by
  rw [trimChars, trimRightChars] at h
  have h1 := List.mem_reverse.mp h
  have h2 := (List.dropWhile_sublist _).subset h1
  have h3 := List.mem_reverse.mp h2
  exact (List.dropWhile_sublist _).subset h3

theorem mem_stripParensFuel {ch : Char} :
    ∀ (f : ℕ) (l : List Char), ch ∈ stripParensFuel f l → ch ∈ l := by
  intro f
  induction f with
  | zero => intro l h; exact h
  | succ f ih =>
    intro l h
    match l with
    | [] => exact h
    | c :: rest =>
      rw [stripParensFuel] at h
      split at h
      · split at h
        case h_1 after heq =>
          split at h
          · rcases List.mem_cons.mp h with rfl | h
            · simp_all
            · exact List.mem_cons_of_mem _ (ih _ h)
          · have hsub : after ⊆ rest := by
              intro x hx
              have hsl : (')' :: after).Sublist rest := heq ▸ List.dropWhile_sublist _
              exact hsl.subset (List.mem_cons_of_mem _ hx)
            exact List.mem_cons_of_mem _ (hsub (ih _ h))
        case h_2 =>
          rcases List.mem_cons.mp h with rfl | h
          · simp_all
          · exact List.mem_cons_of_mem _ (ih _ h)
      · rcases List.mem_cons.mp h with rfl | h
        · exact List.mem_cons_self _ _
        · exact List.mem_cons_of_mem _ (ih _ h)

theorem mem_removeWearFuel {ch : Char} :
    ∀ (f : ℕ) (b : Bool) (l : List Char), ch ∈ removeWearFuel f b l → ch ∈ l := by
  intro f
  induction f with
  | zero => intro b l h; exact h
  | succ f ih =>
    intro b l h
    match l with
    | [] => exact h
    | c :: rest =>
      rw [removeWearFuel] at h
      rcases hm : (if b then none else wearMatchLen (c :: rest)) with _ | n
      · rw [hm] at h
        rcases List.mem_cons.mp h with rfl | h
        · exact List.mem_cons_self _ _
        · exact List.mem_cons_of_mem _ (ih _ _ h)
      · rw [hm] at h
        exact (List.drop_subset _ _) (ih _ _ h)

theorem mem_cleaned_ws {qd : List Char} {ch : Char}
    (h : ch ∈ normPipesChars (removeWearFromQuery qd))
    (hws : ch.isWhitespace = true) : ch = ' ' := by
  rcases mem_normPipesAux _ _ _ h with h' | h' | h' | h'
  · rw [removeWearFromQuery] at h'
    exact mem_squashWsAux_ws _ _ (mem_trimChars h') hws
  · simp at h'
  · exact h'
  · subst h'
    simp at hws

theorem splitSp_ne_nil : ∀ (l : List Char), splitSp l ≠ [] := by
  intro l
  induction l with
  | nil => simp [splitSp]
  | cons c rest ih =>
    rw [splitSp]
    rcases h : splitSp rest with _ | ⟨hd, tl⟩
    · exact absurd h ih
    · by_cases hc : c = ' ' <;> simp [hc]

theorem mem_splitSp {piece : List Char} {ch : Char} :
    ∀ (l : List Char), piece ∈ splitSp l → ch ∈ piece → ch ≠ ' ' ∧ ch ∈ l := by
  intro l
  induction l generalizing piece with
  | nil =>
    intro hp hc
    rw [splitSp] at hp
    rcases List.mem_cons.mp hp with rfl | hp
    · simp at hc
    · simp at hp
  | cons c rest ih =>
    intro hp hc
    rw [splitSp] at hp
    rcases h : splitSp rest with _ | ⟨hd, tl⟩
    · exact absurd h (splitSp_ne_nil rest)
    · simp only [h] at hp
      by_cases hcs : c = ' '
      · rw [if_pos hcs] at hp
        rcases List.mem_cons.mp hp with rfl | hp
        · simp at hc
        · have := ih (h ▸ hp) hc
          exact ⟨this.1, List.mem_cons_of_mem _ this.2⟩
      · rw [if_neg hcs] at hp
        rcases List.mem_cons.mp hp with rfl | hp
        · rcases List.mem_cons.mp hc with rfl | hc
          · exact ⟨hcs, List.mem_cons_self _ _⟩
          · have := ih (h ▸ List.mem_cons_self hd tl) hc
            exact ⟨this.1, List.mem_cons_of_mem _ this.2⟩
        · have := ih (h ▸ List.mem_cons_of_mem hd hp) hc
          exact ⟨this.1, List.mem_cons_of_mem _ this.2⟩

theorem mem_intercalate_head {x : Char} {t0 : List Char} (ts : List (List Char))
    (h : x ∈ t0) : x ∈ List.intercalate [' '] (t0 :: ts) := by
  cases ts with
  | nil => simpa [List.intercalate, List.intersperse] using h
  | cons t1 ts' =>
    simp only [List.intercalate, List.intersperse]
    simp [h]

theorem isWhitespace_toUpper {c : Char} (h : c.isWhitespace = false) :
    (Char.toUpper c).isWhitespace = false := by
  rw [Char.toUpper]
  split_ifs with hc
  · obtain ⟨h1, h2⟩ := hc
    have hb : 65 ≤ c.toNat - 32 ∧ c.toNat - 32 ≤ 90 := by omega
    generalize hg : c.toNat - 32 = m at hb
    obtain ⟨hm1, hm2⟩ := hb
    interval_cases m <;> decide
  · exact h

theorem isWhitespace_toLower {c : Char} (h : c.isWhitespace = false) :
    (Char.toLower c).isWhitespace = false := by
  rw [Char.toLower]
  split_ifs with hc
  · obtain ⟨h1, h2⟩ := hc
    have hb : 97 ≤ c.toNat + 32 ∧ c.toNat + 32 ≤ 122 := by omega
    generalize hg : c.toNat + 32 = m at hb
    obtain ⟨hm1, hm2⟩ := hb
    interval_cases m <;> decide
  · exact h

theorem titleize_exists_nonWs (w : List Char) (hne : w ≠ [])
    (hws : ∀ ch ∈ w, ch.isWhitespace = false) :
    ∃ ch ∈ titleizeWord w, ch.isWhitespace = false := by
  match w with
  | [] => exact absurd rfl hne
  | c0 :: rest =>
    rw [titleizeWord]
    split
    · exact ⟨Char.toUpper c0, List.mem_map_of_mem _ (List.mem_cons_self _ _),
        isWhitespace_toUpper (hws c0 (List.mem_cons_self _ _))⟩
    · exact ⟨Char.toUpper (Char.toLower c0), List.mem_cons_self _ _,
        isWhitespace_toUpper (isWhitespace_toLower (hws c0 (List.mem_cons_self _ _)))⟩

theorem buildBase_hasNonWs {qd b : List Char} (hb : b ∈ buildBaseCandidates qd) :
    ∃ ch ∈ b, ch.isWhitespace = false := by
  rw [buildBaseCandidates] at hb
  split at hb
  · simp at hb
  · split at hb
    case h_1 => simp at hb
    case h_2 w0 wrest heq =>
      have hw0 : w0 ∈ (splitSp (normPipesChars (removeWearFromQuery qd))).filter
          (fun w => w ≠ []) := heq ▸ List.mem_cons_self _ _
      have hw0' := List.mem_filter.mp hw0
      have hw0ne : w0 ≠ [] := by simpa using hw0'.2
      have hw0ws : ∀ ch ∈ w0, ch.isWhitespace = false := by
        intro ch hch
        obtain ⟨hne, hcl⟩ := mem_splitSp _ hw0'.1 hch
        by_contra hcon
        exact hne (mem_cleaned_ws hcl (by simpa using hcon))
      have hjoined : ∃ ch ∈ List.intercalate [' ']
          (List.map titleizeWord (w0 :: wrest)), ch.isWhitespace = false := by
        obtain ⟨ch, hch, hne⟩ := titleize_exists_nonWs w0 hw0ne hw0ws
        exact ⟨ch, by simpa using mem_intercalate_head (wrest.map titleizeWord) hch, hne⟩
      by_cases hpipe : '|' ∈ List.intercalate [' '] (List.map titleizeWord (w0 :: wrest))
      · simp only [hpipe, if_true, mem_dedupKeepFirst] at hb
        rcases List.mem_cons.mp hb with rfl | hb
        · exact ⟨'|', pipe_mem_normPipesAux hpipe _ _, by decide⟩
        · simp at hb
      · simp only [hpipe, if_false, mem_dedupKeepFirst] at hb
        rcases List.mem_append.mp hb with hb | hb
        · rcases List.mem_cons.mp hb with rfl | hb
          · exact hjoined
          · simp at hb
        · by_cases hw : wrest ≠ []
          · rw [if_pos hw] at hb
            rcases List.mem_cons.mp hb with rfl | hb
            · refine ⟨'|', pipe_mem_normPipesAux ?_ _ _, by decide⟩
              exact List.mem_append.mpr (.inl (List.mem_append.mpr (.inr (by decide))))
            · simp at hb
          · rw [if_neg hw] at hb
            simp at hb

theorem beginsWithChars_append (p r : List Char) :
    beginsWithChars p (p ++ r) = true := by
  induction p with
  | nil => rfl
  | cons c t ih => simpa [beginsWithChars] using ih

/-- C6 amended: for every query with stattrak pinned true (souvenir
unspecified), every generated candidate begins with `"StatTrak™ "` or with
`"Souvenir StatTrak™ "` — the souvenir prefix, when the souvenir axis is
expanded, precedes the StatTrak marker. -/
theorem inferCandidates_stattrak_marked (q : String) (w : Option Wear) (c : String)
    (hc : c ∈ inferCandidates q w (some true) none) :
    strBeginsWith c "StatTrak™ " = true ∨
      strBeginsWith c "Souvenir StatTrak™ " = true := by
  rw [inferCandidates] at hc
  split at hc
  · simp at hc
  · obtain ⟨cl, hcl, rfl⟩ := List.mem_map.mp hc
    rw [mem_dedupKeepFirst] at hcl
    obtain ⟨base, hbase, hcl⟩ := List.mem_flatMap.mp hcl
    obtain ⟨svp, hsvp, hcl⟩ := List.mem_flatMap.mp hcl
    obtain ⟨stp, hstp, hcl⟩ := List.mem_flatMap.mp hcl
    obtain ⟨wo, hwo, hcl⟩ := List.mem_map.mp hcl
    have hstp' : stp = "StatTrak™ ".data := by
      simpa [stattrakOptions] using hstp
    subst hstp'
    have hmnw : ∃ ch ∈ base ++ wearSuffix wo, ch.isWhitespace = false := by
      obtain ⟨ch, hch, hne⟩ := buildBase_hasNonWs hbase
      exact ⟨ch, List.mem_append.mpr (.inl hch), hne⟩
    rcases (by simpa [souvenirOptions] using hsvp : svp = [] ∨ svp = "Souvenir ".data)
        with rfl | rfl
    · left
      rw [List.nil_append, List.append_assoc] at hcl
      rw [show ("StatTrak™ ".data ++ (base ++ wearSuffix wo) =
        ('S' :: "tatTrak™ ".data) ++ (base ++ wearSuffix wo)) from rfl] at hcl
      rw [trim_pre _ _ _ (by decide) hmnw] at hcl
      rw [show (('S' :: "tatTrak™ ".data) ++
            trimRightChars (base ++ wearSuffix wo) =
          "StatTrak™".data ++
            (' ' :: trimRightChars (base ++ wearSuffix wo))) from rfl] at hcl
      obtain ⟨qq, hqq⟩ := normPipes_pre ("StatTrak™".data.length) "StatTrak™".data
        le_rfl (by decide) (trimRightChars (base ++ wearSuffix wo))
      rw [normPipesChars] at hcl
      rw [hqq] at hcl
      subst hcl
      rw [strBeginsWith]
      exact beginsWithChars_append "StatTrak™ ".data qq
    · right
      rw [List.append_assoc] at hcl
      rw [show (("Souvenir ".data ++ "StatTrak™ ".data ++ (base ++ wearSuffix wo)) =
        ('S' :: "ouvenir StatTrak™ ".data) ++ (base ++ wearSuffix wo)) from rfl] at hcl
      rw [trim_pre _ _ _ (by decide) hmnw] at hcl
      rw [show (('S' :: "ouvenir StatTrak™ ".data) ++
            trimRightChars (base ++ wearSuffix wo) =
          "Souvenir StatTrak™".data ++
            (' ' :: trimRightChars (base ++ wearSuffix wo))) from rfl] at hcl
      obtain ⟨qq, hqq⟩ := normPipes_pre ("Souvenir StatTrak™".data.length)
        "Souvenir StatTrak™".data le_rfl (by decide)
        (trimRightChars (base ++ wearSuffix wo))
      rw [normPipesChars] at hcl
      rw [hqq] at hcl
      subst hcl
      rw [strBeginsWith]
      exact beginsWithChars_append "Souvenir StatTrak™ ".data qq

set_option maxRecDepth 40000 in
/-- C6 counterexample: with stattrak pinned true and souvenir unspecified,
the candidate `"Souvenir StatTrak™ AWP"` is generated for the query
`"awp"`, and it does not begin with `"StatTrak™ "` — the souvenir prefix
precedes the StatTrak marker. -/
theorem inferCandidates_souvenir_counterexample :
    "Souvenir StatTrak™ AWP" ∈ inferCandidates "awp" none (some true) none ∧
    strBeginsWith "Souvenir StatTrak™ AWP" "StatTrak™ " = false := by
  constructor
  · decide
  · decide

set_option maxRecDepth 40000 in
/-- Witness for C6's amended statement at a concrete query and candidate. -/
theorem inferCandidates_stattrak_marked_witness :
    strBeginsWith "Souvenir StatTrak™ AWP" "StatTrak™ " = true ∨
      strBeginsWith "Souvenir StatTrak™ AWP" "Souvenir StatTrak™ " = true :=
  inferCandidates_stattrak_marked "awp" none "Souvenir StatTrak™ AWP" (by decide)
